import Mathlib

/-!
Shallow embedding of `map_thicket_agc/feature_selection.py`.

The file models the four operations of the module:

* `score_model` — cross-validated model scoring.  Its per-fold scorer is
  `make_scorer(lambda meas, pred: -np.sqrt(metrics.mean_squared_error(meas, pred)))`;
  a cross-validation run is represented by the list of per-fold lists of
  per-row held-out errors (`pred - meas`).  The fold-count validation that
  sklearn's `cross_validate`/`KFold` performs on `score_model`'s `cv`
  argument is modelled as an `Except`.
* `ranking` — per-feature univariate scoring (input column order).
* `forward_selection` — greedy forward selection; the loop is embedded
  with the candidate scores abstracted into a score function over a
  selected set and a candidate, since the claims about it concern the
  control flow of the loop, not the regression model.
* `fcr` — feature clustering and ranking; the similarity matrix,
  standardization and squared distance covariance are embedded concretely
  over `ℝ`; the affinity-propagation partition (computed by sklearn) is a
  parameter (`labels`).
-/

/-- Per-fold score produced by the scorer that `score_model` passes to
sklearn's `cross_validate` (line 259): for a fold whose held-out rows have
prediction errors `errs`, the score is `-sqrt(mean_squared_error)`. -/
noncomputable def foldScore (errs : List ℝ) : ℝ :=
  -Real.sqrt ((errs.map (fun e => e ^ 2)).sum / errs.length)

/-- Aggregation applied to the array of per-fold scores in
`forward_selection` (line 149) and `ranking` (line 209):
`-np.sqrt((scores ** 2).mean())`. -/
noncomputable def aggOfFoldScores (v : List ℝ) : ℝ :=
  -Real.sqrt ((v.map (fun s => s ^ 2)).sum / v.length)

/-- Aggregate negative-RMSE score of a cross-validation run, as the code
computes it: the per-fold scores from `score_model` fed through the
`-sqrt(mean(squares))` aggregation of lines 149/209. -/
noncomputable def aggScore (folds : List (List ℝ)) : ℝ :=
  aggOfFoldScores (folds.map foldScore)

/-- The aggregation the spec describes (refinement target, from the spec's
words): `-sqrt(mean of squared per-row held-out errors pooled across all
held-out rows of all folds combined)`. -/
noncomputable def pooledScore (folds : List (List ℝ)) : ℝ :=
  -Real.sqrt (((folds.flatten.map (fun e => e ^ 2)).sum) / (folds.flatten.length))

/-- Errors raised out of `score_model` by sklearn's argument validation. -/
inductive ScoreModelError : Type
  | invalidFoldCount : ScoreModelError
  | dimensionMismatch : ScoreModelError
deriving DecidableEq

/-- Argument validation of `score_model feat_df y cv` (lines 250-261):
the code defaults `cv` to `len(y)` (leave-one-out) and hands it to
sklearn's `cross_validate`, which raises when the feature table and the
target have different lengths (`check_consistent_length`) and, through
`KFold`, when the fold count is below 2 or above the sample count.
`nX` is the row count of `feat_df`, `nY` the length of `y`. -/
def score_model_validate (nX nY : ℕ) (cv : Option ℕ) : Except ScoreModelError ℕ :=
  if nX ≠ nY then .error .dimensionMismatch
  else
    let k := cv.getD nY
    if k < 2 ∨ nY < k then .error .invalidFoldCount
    else .ok k

/-- Sum of a list after dividing each mapped value by a constant. -/
theorem list_sum_map_div {α : Type} (l : List α) (g : α → ℝ) (c : ℝ) :
    (l.map (fun x => g x / c)).sum = (l.map g).sum / c := by
  induction l with
  | nil => simp
  | cons a t ih => simp [ih, add_div]

/-- The square of a per-fold score recovers that fold's mean squared
error. -/
theorem foldScore_sq (errs : List ℝ) :
    (foldScore errs) ^ 2 = (errs.map (fun e => e ^ 2)).sum / (errs.length : ℝ) := by
  have h : 0 ≤ (errs.map (fun e => e ^ 2)).sum / (errs.length : ℝ) := by
    apply div_nonneg
    · apply List.sum_nonneg
      intro x hx
      simp only [List.mem_map] at hx
      obtain ⟨e, _, rfl⟩ := hx
      positivity
    · positivity
  rw [show foldScore errs
      = -Real.sqrt ((errs.map (fun e => e ^ 2)).sum / (errs.length : ℝ)) from rfl,
    neg_sq, Real.sq_sqrt h]

/-- Length of a flattened list of equally sized lists. -/
theorem flatten_length_const {α : Type} (m : ℕ) :
    ∀ (L : List (List α)), (∀ f ∈ L, f.length = m) →
      L.flatten.length = L.length * m := by
  intro L
  induction L with
  | nil => simp
  | cons f t ih =>
    intro h
    have hf : f.length = m := h f (by simp)
    have ht := ih (fun g hg => h g (by simp [hg]))
    simp [hf, ht, Nat.succ_mul, Nat.add_comm]

/-- Claim C1 (amended): the aggregate negative-RMSE score that the code
computes (`-sqrt(mean over folds of squared per-fold RMSE)`, lines
149/209) equals the pooled per-row formula of the spec whenever all folds
hold out the same number of rows (in particular under leave-one-out); the
two aggregations are not equal for unequal fold sizes. -/
theorem cv_aggregate_equal_folds (folds : List (List ℝ)) (m : ℕ) (hm : 0 < m)
    (hlen : ∀ f ∈ folds, f.length = m) :
    aggScore folds = pooledScore folds := by
  have _ := hm
  have h1 : ((folds.map foldScore).map (fun s => s ^ 2)).sum
      = (folds.map (fun f => (f.map (fun e => e ^ 2)).sum)).sum / (m : ℝ) := by
    rw [List.map_map]
    have hcg : folds.map ((fun s => s ^ 2) ∘ foldScore)
        = folds.map (fun f => (f.map (fun e => e ^ 2)).sum / (m : ℝ)) := by
      apply List.map_congr_left
      intro f hf
      simp only [Function.comp]
      rw [foldScore_sq, hlen f hf]
    rw [hcg, list_sum_map_div]
  have h2 : (folds.flatten.map (fun e => e ^ 2)).sum
      = (folds.map (fun f => (f.map (fun e => e ^ 2)).sum)).sum := by
    rw [List.map_flatten, List.sum_flatten, List.map_map]
    rfl
  have h3 : folds.flatten.length = folds.length * m :=
    flatten_length_const m folds hlen
  rw [aggScore, aggOfFoldScores, pooledScore, h1, h2, h3, List.length_map]
  rw [div_div]
  congr 2
  push_cast
  ring

/-- Claim C1, counterexample: with two folds of unequal sizes (held-out
errors `[0, 0]` and `[3]`), the score the code computes, `-sqrt(9/2)`,
differs from the pooled per-row value `-sqrt(9/3)` asserted by the
claim. -/
theorem cv_aggregate_cx :
    aggScore [[(0 : ℝ), 0], [3]] ≠ pooledScore [[(0 : ℝ), 0], [3]] := by
  have h1 : foldScore [(0 : ℝ), 0] = 0 := by
    simp [foldScore]
  have h2 : foldScore [(3 : ℝ)] = -3 := by
    have h9 : Real.sqrt 9 = 3 := by
      rw [show (9 : ℝ) = 3 ^ 2 by norm_num,
        Real.sqrt_sq (by norm_num : (0 : ℝ) ≤ 3)]
    simp only [foldScore, List.map_cons, List.map_nil, List.sum_cons,
      List.sum_nil, List.length_cons, List.length_nil]
    norm_num [h9]
  have hA : aggScore [[(0 : ℝ), 0], [3]] = -Real.sqrt (9 / 2) := by
    rw [aggScore]
    simp only [List.map_cons, List.map_nil, h1, h2]
    rw [aggOfFoldScores]
    norm_num
  have hP : pooledScore [[(0 : ℝ), 0], [3]] = -Real.sqrt 3 := by
    rw [pooledScore]
    norm_num
  rw [hA, hP]
  intro h
  have h' := neg_injective h
  rw [Real.sqrt_inj (by norm_num) (by norm_num)] at h'
  norm_num at h'

/-- Witness for `cv_aggregate_equal_folds` at two singleton folds
(leave-one-out on two samples). -/
theorem cv_aggregate_equal_folds_witness :
    0 < 1 ∧ (∀ f ∈ [[(1 : ℝ)], [2]], f.length = 1) ∧
      aggScore [[(1 : ℝ)], [2]] = pooledScore [[(1 : ℝ)], [2]] := by
  refine ⟨by norm_num, ?_, ?_⟩
  · intro f hf
    rcases List.mem_cons.mp hf with h | h
    · simp [h]
    · rcases List.mem_cons.mp h with h' | h'
      · simp [h']
      · simp at h'
  · exact cv_aggregate_equal_folds [[(1 : ℝ)], [2]] 1 (by norm_num)
      (by
        intro f hf
        rcases List.mem_cons.mp hf with h | h
        · simp [h]
        · rcases List.mem_cons.mp h with h' | h'
          · simp [h']
          · simp at h')

/-- Claim C8: `score_model`'s evaluation fails with `invalidFoldCount`
for every fold count below 2 and every fold count above the sample count,
fails with `dimensionMismatch` whenever the feature table's row count
differs from the target length, and runs without error in the
leave-one-out configuration (`cv` equal to the sample count) for every
sample count at least 2. -/
theorem score_model_validation (n k nX nY : ℕ) (cv : Option ℕ) :
    (k < 2 → score_model_validate n n (some k) = .error .invalidFoldCount) ∧
    (n < k → score_model_validate n n (some k) = .error .invalidFoldCount) ∧
    (nX ≠ nY → score_model_validate nX nY cv = .error .dimensionMismatch) ∧
    (2 ≤ n → score_model_validate n n (some n) = .ok n) := by
  refine ⟨?_, ?_, ?_, ?_⟩
  · intro h
    simp [score_model_validate, h]
  · intro h
    simp [score_model_validate, h]
  · intro h
    simp [score_model_validate, h]
  · intro h
    have h1 : ¬ (n < 2 ∨ n < n) := by omega
    simp only [score_model_validate, ne_eq, not_true_eq_false, if_false,
      Option.getD_some, if_neg h1, ite_self]

/-- Witness for `score_model_validation` on concrete fold counts and
sample counts. -/
theorem score_model_validation_witness :
    score_model_validate 5 5 (some 1) = .error .invalidFoldCount ∧
    score_model_validate 5 5 (some 6) = .error .invalidFoldCount ∧
    score_model_validate 5 4 (some 3) = .error .dimensionMismatch ∧
    score_model_validate 5 5 (some 5) = .ok 5 :=
  ⟨(score_model_validation 5 1 0 0 none).1 (by decide),
   (score_model_validation 5 6 0 0 none).2.1 (by decide),
   (score_model_validation 0 0 5 4 (some 3)).2.2.1 (by decide),
   (score_model_validation 5 0 0 0 none).2.2.2 (by decide)⟩

/-- First-maximum selection of the candidate loop in `forward_selection`
(lines 141-156): fold over the candidates keeping the current best and
replacing it only on a strictly greater score (`if score > best_score`),
so the first candidate attaining the maximal score wins; `none` models
the empty-collection access `available_feats_df.columns[0]` (line 143),
which raises `IndexError`. -/
def firstArgmax {α β : Type} [LinearOrder β] (f : α → β) : List α → Option α
  | [] => none
  | a :: rest => some (rest.foldl (fun b k => if f b < f k then k else b) a)

/-- Behaviour of the strict-improvement fold: either no candidate beats
the initial best, or the result is the first candidate attaining the
maximal value. -/
theorem foldBest_spec {α β : Type} [LinearOrder β] (f : α → β) :
    ∀ (l : List α) (b : α),
      (l.foldl (fun b k => if f b < f k then k else b) b = b ∧ ∀ x ∈ l, f x ≤ f b) ∨
      (∃ l1 m l2, l = l1 ++ m :: l2 ∧
        l.foldl (fun b k => if f b < f k then k else b) b = m ∧
        f b < f m ∧ (∀ x ∈ l1, f x < f m) ∧ (∀ x ∈ l2, f x ≤ f m)) := by
  intro l
  induction l with
  | nil => intro b; left; exact ⟨rfl, by simp⟩
  | cons a t ih =>
    intro b
    rw [List.foldl_cons]
    by_cases hab : f b < f a
    · rw [if_pos hab]
      rcases ih a with ⟨he, hall⟩ | ⟨l1, m, l2, ht, hres, ham, h1, h2⟩
      · right
        exact ⟨[], a, t, by simp, he, hab, by simp, hall⟩
      · right
        refine ⟨a :: l1, m, l2, by simp [ht], hres, lt_trans hab ham, ?_, h2⟩
        intro x hx
        rcases List.mem_cons.mp hx with rfl | hx'
        · exact ham
        · exact h1 x hx'
    · rw [if_neg hab]
      rcases ih b with ⟨he, hall⟩ | ⟨l1, m, l2, ht, hres, hbm, h1, h2⟩
      · left
        refine ⟨he, ?_⟩
        intro x hx
        rcases List.mem_cons.mp hx with rfl | hx'
        · exact le_of_not_lt hab
        · exact hall x hx'
      · right
        refine ⟨a :: l1, m, l2, by simp [ht], hres, hbm, ?_, h2⟩
        intro x hx
        rcases List.mem_cons.mp hx with rfl | hx'
        · exact lt_of_le_of_lt (le_of_not_lt hab) hbm
        · exact h1 x hx'

/-- `firstArgmax` on a nonempty list returns the first element attaining
the maximal value: everything before it scores strictly lower, everything
after it scores no higher. -/
theorem firstArgmax_spec {α β : Type} [LinearOrder β] (f : α → β) (l : List α)
    (h : l ≠ []) :
    ∃ m l1 l2, firstArgmax f l = some m ∧ l = l1 ++ m :: l2 ∧
      (∀ x ∈ l1, f x < f m) ∧ (∀ x ∈ l2, f x ≤ f m) := by
  match l, h with
  | a :: t, _ =>
    rcases foldBest_spec f t a with ⟨he, hall⟩ | ⟨l1, m, l2, ht, hres, ham, h1, h2⟩
    · exact ⟨a, [], t, by simp [firstArgmax, he], rfl, by simp, hall⟩
    · refine ⟨m, a :: l1, l2, by simp [firstArgmax, hres], by simp [ht], ?_, h2⟩
      intro x hx
      rcases List.mem_cons.mp hx with rfl | hx'
      · exact ham
      · exact h1 x hx'

/-- The failures `forward_selection` can raise: the `IndexError` of the
empty-collection access `available_feats_df.columns[0]` (line 143), and
the `ValueError` that `np.argmax(selected_scores)` raises on an empty
score array (line 165, reached when the selection loop ran zero
times). -/
inductive FSelError : Type
  | indexError : FSelError
  | emptyArgmax : FSelError
deriving DecidableEq

/-- The `while` loop of `forward_selection` (lines 140-161) with the
remaining iteration count `n` explicit.  State: available features,
selected features in selection order, recorded best scores.  Each
iteration scores every available candidate on the trial table formed by
the selected set plus that candidate (`sc selected candidate`), keeps the
first strict maximum, moves it from the available set to the end of the
selected set and records its score.  `FSelError.indexError` models the
`IndexError` raised at `available_feats_df.columns[0]` when an iteration
starts with no available features. -/
def fsLoop {β : Type} [LinearOrder β] (sc : List String → String → β) :
    ℕ → List String → List String → List β →
      Except FSelError (List String × List β)
  | 0, _, sel, scores => .ok (sel, scores)
  | n + 1, avail, sel, scores =>
    match firstArgmax (sc sel) avail with
    | none => .error .indexError
    | some k => fsLoop sc n (avail.erase k) (sel ++ [k]) (scores ++ [sc sel k])

/-- `forward_selection(feat_df, y, max_num_feats, ...)` (lines 100-170)
over the column identifiers of `feat_df`, with the cross-validated trial
score of lines 145-151 abstracted as `sc selected candidate`.
A `max_num_feats` of 0 (the default) selects all features (line 129).
After the loop, lines 163-168 unconditionally run
`np.argmax(selected_scores)` and `selected_scores.max()` to log the best
prefix; when the loop ran zero times the score array is empty and
`np.argmax` raises `ValueError` (`FSelError.emptyArgmax`); otherwise the
selected columns and scores are returned unchanged (line 170). -/
def forward_selection {β : Type} [LinearOrder β] (cols : List String)
    (max_num_feats : ℕ) (sc : List String → String → β) :
    Except FSelError (List String × List β) :=
  match fsLoop sc (if max_num_feats = 0 then cols.length else max_num_feats)
      cols [] [] with
  | .error e => .error e
  | .ok (sel, scores) =>
    if scores.isEmpty then .error .emptyArgmax else .ok (sel, scores)

/-- Claim C2: in every iteration of the forward-selection loop, the
candidate appended to the selected set is the first feature, in the
current relative order of the available set, attaining the strictly
highest trial score (the strict `>` comparison keeps the first maximum on
ties); that candidate is removed from the available set and appended to
the selected order with its trial score recorded. -/
theorem forward_selection_step {β : Type} [LinearOrder β]
    (sc : List String → String → β) (n : ℕ) (avail sel : List String)
    (scores : List β) (h : avail ≠ []) :
    ∃ k l1 l2, avail = l1 ++ k :: l2 ∧
      (∀ x ∈ l1, sc sel x < sc sel k) ∧
      (∀ x ∈ avail, sc sel x ≤ sc sel k) ∧
      fsLoop sc (n + 1) avail sel scores =
        fsLoop sc n (avail.erase k) (sel ++ [k]) (scores ++ [sc sel k]) := by
  obtain ⟨k, l1, l2, hsome, hdec, h1, h2⟩ := firstArgmax_spec (sc sel) avail h
  refine ⟨k, l1, l2, hdec, h1, ?_, ?_⟩
  · intro x hx
    rw [hdec] at hx
    rcases List.mem_append.mp hx with hx' | hx'
    · exact le_of_lt (h1 x hx')
    · rcases List.mem_cons.mp hx' with rfl | hx''
      · exact le_refl _
      · exact h2 x hx''
  · simp [fsLoop, hsome]

/-- Witness for `forward_selection_step` on a concrete two-candidate
state. -/
theorem forward_selection_step_witness :
    (["a", "b"] : List String) ≠ [] ∧
    (∃ k l1 l2, (["a", "b"] : List String) = l1 ++ k :: l2 ∧
      (∀ x ∈ l1, (fun (_ : List String) k => if k = "b" then (1 : ℚ) else 0) [] x
        < (fun (_ : List String) k => if k = "b" then (1 : ℚ) else 0) [] k) ∧
      (∀ x ∈ (["a", "b"] : List String),
        (fun (_ : List String) k => if k = "b" then (1 : ℚ) else 0) [] x
        ≤ (fun (_ : List String) k => if k = "b" then (1 : ℚ) else 0) [] k) ∧
      fsLoop (fun (_ : List String) k => if k = "b" then (1 : ℚ) else 0)
          (0 + 1) ["a", "b"] [] [] =
        fsLoop (fun (_ : List String) k => if k = "b" then (1 : ℚ) else 0) 0
          ((["a", "b"] : List String).erase k) ([] ++ [k])
          ([] ++ [(fun (_ : List String) k => if k = "b" then (1 : ℚ) else 0) [] k])) :=
  ⟨by decide,
   forward_selection_step (fun (_ : List String) k => if k = "b" then (1 : ℚ) else 0)
     0 ["a", "b"] [] [] (by decide)⟩

/-- The loop invariant of `forward_selection`: with enough available
features and no duplicate identifiers, `n` iterations succeed, extend the
selected set and score list by exactly `n`, and keep the selected
identifiers duplicate-free and drawn from the initial state. -/
theorem fsLoop_success {β : Type} [LinearOrder β] (sc : List String → String → β) :
    ∀ (n : ℕ) (avail sel : List String) (scores : List β),
      n ≤ avail.length → (avail ++ sel).Nodup →
      ∃ sel' scores', fsLoop sc n avail sel scores = .ok (sel', scores') ∧
        sel'.length = sel.length + n ∧ scores'.length = scores.length + n ∧
        sel'.Nodup ∧ ∀ x ∈ sel', x ∈ sel ∨ x ∈ avail := by
  intro n
  induction n with
  | zero =>
    intro avail sel scores _ hnd
    exact ⟨sel, scores, rfl, by simp, by simp, hnd.of_append_right,
      fun x hx => Or.inl hx⟩
  | succ n ih =>
    intro avail sel scores hlen hnd
    have hne : avail ≠ [] := by
      intro hnil
      rw [hnil] at hlen
      simp at hlen
    obtain ⟨k, l1, l2, hsome, hdec, h1, h2⟩ := firstArgmax_spec (sc sel) avail hne
    have hkmem : k ∈ avail := by rw [hdec]; simp
    have hlen' : n ≤ (avail.erase k).length := by
      rw [List.length_erase_of_mem hkmem]
      omega
    have p2 : (avail ++ sel).Perm (k :: (avail.erase k ++ sel)) :=
      (List.perm_cons_erase hkmem).append_right sel
    have p3 : (avail.erase k ++ (sel ++ [k])).Perm (k :: (avail.erase k ++ sel)) :=
      (List.Perm.append_left (avail.erase k) List.perm_append_comm).trans
        List.perm_middle
    have hnd' : (avail.erase k ++ (sel ++ [k])).Nodup :=
      (p2.trans p3.symm).nodup hnd
    obtain ⟨sel', scores', heq, hl1, hl2, hnd'', hmem⟩ :=
      ih (avail.erase k) (sel ++ [k]) (scores ++ [sc sel k]) hlen' hnd'
    refine ⟨sel', scores', ?_, ?_, ?_, hnd'', ?_⟩
    · simpa [fsLoop, hsome] using heq
    · simp only [List.length_append, List.length_cons, List.length_nil] at hl1
      omega
    · simp only [List.length_append, List.length_cons, List.length_nil] at hl2
      omega
    · intro x hx
      rcases hmem x hx with hin | hin
      · rcases List.mem_append.mp hin with hs | hk
        · exact Or.inl hs
        · rcases List.mem_cons.mp hk with rfl | habs
          · exact Or.inr hkmem
          · simp at habs
      · exact Or.inr (List.mem_of_mem_erase hin)

/-- Claim C6 (amended): whenever the effective bound — `max_num_feats`,
or the full column count under the 0/unspecified default — is at least 1
and at most the column count, forward selection returns, its score
sequence has length exactly that bound, and the selected identifiers are
a duplicate-free subset of the input columns.  A run whose effective
bound is 0 (a zero-column table under the default) returns nothing: line
165 raises `ValueError` on the empty score array. -/
theorem forward_selection_shape {β : Type} [LinearOrder β] (cols : List String)
    (max_num_feats : ℕ) (sc : List String → String → β)
    (hnd : cols.Nodup)
    (hpos : 0 < (if max_num_feats = 0 then cols.length else max_num_feats))
    (hle : (if max_num_feats = 0 then cols.length else max_num_feats) ≤ cols.length) :
    ∃ sel scores, forward_selection cols max_num_feats sc = .ok (sel, scores) ∧
      scores.length = (if max_num_feats = 0 then cols.length else max_num_feats) ∧
      sel.length = (if max_num_feats = 0 then cols.length else max_num_feats) ∧
      sel.Nodup ∧ ∀ x ∈ sel, x ∈ cols := by
  set m := (if max_num_feats = 0 then cols.length else max_num_feats) with hm
  obtain ⟨sel, scores, heq, hl1, hl2, hnd', hmem⟩ :=
    fsLoop_success sc m cols [] [] hle (by simpa using hnd)
  have hlen : scores.length = m := by simpa using hl2
  have hemp : scores.isEmpty = false := by
    cases scores with
    | nil =>
      simp only [List.length_nil] at hlen
      omega
    | cons a t => rfl
  refine ⟨sel, scores, ?_, hlen, by simpa using hl1, hnd',
    fun x hx => (hmem x hx).resolve_left (by simp)⟩
  simp [forward_selection, ← hm, heq, hemp]

/-- Witness for `forward_selection_shape`: selecting 1 of 2 features. -/
theorem forward_selection_shape_witness :
    (["a", "b"] : List String).Nodup ∧
    (0 < (if 1 = 0 then (["a", "b"] : List String).length else 1)) ∧
    ((if 1 = 0 then (["a", "b"] : List String).length else 1)
      ≤ (["a", "b"] : List String).length) ∧
    (∃ sel scores,
      forward_selection ["a", "b"] 1 (fun _ _ => (0 : ℚ)) = .ok (sel, scores) ∧
      scores.length = (if 1 = 0 then (["a", "b"] : List String).length else 1) ∧
      sel.length = (if 1 = 0 then (["a", "b"] : List String).length else 1) ∧
      sel.Nodup ∧ ∀ x ∈ sel, x ∈ (["a", "b"] : List String)) :=
  ⟨by decide, by decide, by decide,
   forward_selection_shape ["a", "b"] 1 (fun _ _ => (0 : ℚ)) (by decide) (by decide)
     (by decide)⟩

/-- Claim C6, counterexample: the run with `max_num_feats` 0 on a
zero-column table — within the claim's bound, with full feature count
0 — returns no score sequence at all: the loop runs zero times, so
`np.argmax(selected_scores)` at line 165 raises `ValueError` on the
empty array instead of producing the claimed length-0 output. -/
theorem forward_selection_no_return_cx :
    forward_selection ([] : List String) 0 (fun _ _ => (1 : ℚ)) =
      Except.error FSelError.emptyArgmax := rfl

/-- Running the forward-selection loop for more iterations than there are
available features ends in the empty-available-set `IndexError`. -/
theorem fsLoop_overflow {β : Type} [LinearOrder β] (sc : List String → String → β) :
    ∀ (n : ℕ) (avail sel : List String) (scores : List β),
      avail.length < n → fsLoop sc n avail sel scores = .error .indexError := by
  intro n
  induction n with
  | zero =>
    intro avail sel scores h
    exact absurd h (Nat.not_lt_zero _)
  | succ n ih =>
    intro avail sel scores h
    cases avail with
    | nil => simp [fsLoop, firstArgmax]
    | cons a t =>
      obtain ⟨k, l1, l2, hsome, hdec, h1, h2⟩ :=
        firstArgmax_spec (sc sel) (a :: t) (by simp)
      have hkmem : k ∈ a :: t := by rw [hdec]; simp
      have hlt : (List.erase (a :: t) k).length < n := by
        rw [List.length_erase_of_mem hkmem]
        simp only [List.length_cons] at h ⊢
        omega
      simp [fsLoop, hsome, ih _ _ _ hlt]

/-- Claim C10 (amended): `forward_selection` fails on every call whose
`max_num_feats` strictly exceeds the column count and on every call on a
zero-column table, but at two different points.  An explicit positive
`max_num_feats` above the column count (on a zero-column table: any
explicit `max_num_feats` of 1 or more) drives the loop to an iteration
with an empty available set, where `available_feats_df.columns[0]`
(line 143) raises `IndexError`.  The zero-column call with
`max_num_feats` 0 or unspecified never reaches that access — the
sentinel sets the loop bound to the column count 0, not above it, and
the loop body never runs — and instead fails with the `ValueError` of
`np.argmax` on the empty score array (line 165). -/
theorem forward_selection_overflow {β : Type} [LinearOrder β]
    (cols : List String) (max_num_feats : ℕ) (sc sc' : List String → String → β)
    (h : cols.length < max_num_feats) :
    forward_selection cols max_num_feats sc = .error .indexError ∧
    forward_selection ([] : List String) 0 sc' = .error .emptyArgmax := by
  constructor
  · have hmax : max_num_feats ≠ 0 := by omega
    simp [forward_selection, if_neg hmax,
      fsLoop_overflow sc max_num_feats cols [] [] h]
  · rfl

/-- Claim C10, counterexample to its zero-column clause: on a table with
zero columns and the default `max_num_feats = 0`, the select-all sentinel
sets the loop bound to the column count 0 (not above it), the loop body —
and with it the `columns[0]` access — never runs, and the failure this
call hits is the post-loop `ValueError` of `np.argmax` on the empty score
array, not the `IndexError` of the claimed first-column access. -/
theorem forward_selection_empty_cx :
    forward_selection ([] : List String) 0 (fun _ _ => (0 : ℚ)) =
      Except.error FSelError.emptyArgmax ∧
    (Except.error FSelError.emptyArgmax
        : Except FSelError (List String × List ℚ))
      ≠ Except.error FSelError.indexError :=
  ⟨rfl, by simp⟩

/-- Witness for `forward_selection_overflow`: two features requested from
a one-column table, and the zero-column default call. -/
theorem forward_selection_overflow_witness :
    (["a"] : List String).length < 2 ∧
    forward_selection ["a"] 2 (fun _ _ => (0 : ℚ)) =
      Except.error FSelError.indexError ∧
    forward_selection ([] : List String) 0 (fun _ _ => (3 : ℚ)) =
      Except.error FSelError.emptyArgmax :=
  ⟨by decide,
   (forward_selection_overflow ["a"] 2 (fun _ _ => (0 : ℚ)) (fun _ _ => (3 : ℚ))
     (by decide)).1,
   (forward_selection_overflow ["a"] 2 (fun _ _ => (0 : ℚ)) (fun _ _ => (3 : ℚ))
     (by decide)).2⟩

/-- `ranking(feat_df, y, ...)` (lines 173-218): iterate the feature
columns in table order and append, for each, the aggregate
cross-validated score of the single-column table; `foldsOf k` stands for
the per-fold score array `scores['test_-RMSE']` that `score_model`
returns for column `k`, aggregated exactly as in line 209. -/
noncomputable def rankingScores : List String → (String → List ℝ) → List ℝ
  | [], _ => []
  | k :: t, foldsOf => aggOfFoldScores (foldsOf k) :: rankingScores t foldsOf

/-- `ranking` produces one score per input column. -/
theorem rankingScores_length (cols : List String) (foldsOf : String → List ℝ) :
    (rankingScores cols foldsOf).length = cols.length := by
  induction cols with
  | nil => rfl
  | cons k t ih => simp [rankingScores, ih]

/-- The `i`-th score of `ranking` is the aggregate score of the `i`-th
input column. -/
theorem rankingScores_get (cols : List String) (foldsOf : String → List ℝ) :
    ∀ i : ℕ, i < cols.length →
      (rankingScores cols foldsOf).getD i 0
        = aggOfFoldScores (foldsOf (cols.getD i "")) := by
  induction cols with
  | nil =>
    intro i h
    simp at h
  | cons k t ih =>
    intro i h
    cases i with
    | zero => simp [rankingScores]
    | succ j =>
      simp only [rankingScores, List.getD_cons_succ]
      exact ih j (by simpa using h)

/-- Claim C9: `ranking` returns exactly one score per input feature
column, positioned in the same order as the columns appear in the input
table — the `i`-th returned score is the cross-validated aggregate of the
`i`-th input column — with no reordering applied to the output. -/
theorem ranking_input_order (cols : List String) (foldsOf : String → List ℝ) :
    (rankingScores cols foldsOf).length = cols.length ∧
    ∀ i : ℕ, i < cols.length →
      (rankingScores cols foldsOf).getD i 0
        = aggOfFoldScores (foldsOf (cols.getD i "")) :=
  ⟨rankingScores_length cols foldsOf, rankingScores_get cols foldsOf⟩

/-- Witness for `ranking_input_order` on a one-column table. -/
theorem ranking_input_order_witness :
    (rankingScores ["a"] (fun _ => [(-1 : ℝ)])).length = 1 ∧
    (rankingScores ["a"] (fun _ => [(-1 : ℝ)])).getD 0 0
      = aggOfFoldScores [(-1 : ℝ)] := by
  have h := ranking_input_order ["a"] (fun _ => [(-1 : ℝ)])
  exact ⟨h.1, h.2 0 (by norm_num)⟩

/-- Claim C5 (amended): the ranking operation returns the plain list of
single-column aggregate scores in input column order — it does not pair
scores with feature identifiers and applies no descending sort; callers
locate the best feature positionally (`np.argmax`). -/
theorem ranking_returns_plain_scores (cols : List String)
    (foldsOf : String → List ℝ) :
    rankingScores cols foldsOf = cols.map (fun k => aggOfFoldScores (foldsOf k)) := by
  induction cols with
  | nil => rfl
  | cons k t ih => simp [rankingScores, ih]

/-- Claim C5, counterexample: with per-fold scores `[-2]` for column "a"
and `[-1]` for column "b", `ranking` returns `[-2, -1]`, which is not in
descending score order. -/
theorem ranking_not_sorted_cx :
    ¬ List.Sorted (fun x y : ℝ => y ≤ x)
      (rankingScores ["a", "b"] (fun k => if k = "a" then [-2] else [-1])) := by
  have h4 : Real.sqrt 4 = 2 := by
    rw [show (4 : ℝ) = 2 ^ 2 by norm_num, Real.sqrt_sq (by norm_num : (0 : ℝ) ≤ 2)]
  have ha : aggOfFoldScores [(-2 : ℝ)] = -2 := by
    simp only [aggOfFoldScores, List.map_cons, List.map_nil, List.sum_cons,
      List.sum_nil, List.length_cons, List.length_nil]
    norm_num [h4]
  have hb : aggOfFoldScores [(-1 : ℝ)] = -1 := by
    simp only [aggOfFoldScores, List.map_cons, List.map_nil, List.sum_cons,
      List.sum_nil, List.length_cons, List.length_nil]
    norm_num [Real.sqrt_one]
  have hr : rankingScores ["a", "b"] (fun k => if k = "a" then [-2] else [-1])
      = [-2, -1] := by
    simp [rankingScores, ha, hb]
  rw [hr]
  intro hs
  rw [List.sorted_cons] at hs
  have h := hs.1 (-1) (by simp)
  norm_num at h

/-- Mean of a numeric column. -/
noncomputable def colMean (v : List ℝ) : ℝ := v.sum / v.length

/-- Population variance of a column, as computed inside sklearn's
`StandardScaler`. -/
noncomputable def popVar (v : List ℝ) : ℝ :=
  ((v.map (fun x => (x - colMean v) ^ 2)).sum) / v.length

/-- The per-column scale used by `StandardScaler`: the population
standard deviation, with a zero value replaced by 1 (sklearn's
`_handle_zeros_in_scale`), so a constant column is not divided by
zero. -/
noncomputable def stdScale (v : List ℝ) : ℝ :=
  if Real.sqrt (popVar v) = 0 then 1 else Real.sqrt (popVar v)

/-- `StandardScaler().fit_transform` on one column (lines 67-69 of
`fcr`). -/
noncomputable def standardize (v : List ℝ) : List ℝ :=
  v.map (fun x => (x - colMean v) / stdScale v)

/-- Euclidean distance between two equal-length vectors, one entry of
`dcor.distances.pairwise_distances`. -/
noncomputable def euclid (u v : List ℝ) : ℝ :=
  Real.sqrt ((List.zipWith (fun a b => (a - b) ^ 2) u v).sum)

/-- The matrix `d` that `fcr` passes to `AffinityPropagation` as the
precomputed affinity (line 71):
`d = -dcor.distances.pairwise_distances(sc_feat_df.T)`, the negated
pairwise Euclidean distances between the standardized feature columns. -/
noncomputable def fcr_d (cols : List (List ℝ)) : List (List ℝ) :=
  (List.range cols.length).map (fun i =>
    (List.range cols.length).map (fun j =>
      -(euclid (standardize (cols.getD i [])) (standardize (cols.getD j [])))))

/-- All index pairs `(i, j)` with `i, j < n`. -/
def pairList (n : ℕ) : List (ℕ × ℕ) :=
  (List.range n).flatMap (fun i => (List.range n).map (fun j => (i, j)))

/-- Entry `(i, j)` of the double-centered distance matrix of the sample
`u` (the centered `a`-matrix of sample distance covariance, as in the
`dcor` package). -/
noncomputable def aCent (u : List ℝ) (i j : ℕ) : ℝ :=
  |u.getD i 0 - u.getD j 0|
    - ((List.range u.length).map (fun t => |u.getD i 0 - u.getD t 0|)).sum / u.length
    - ((List.range u.length).map (fun t => |u.getD t 0 - u.getD j 0|)).sum / u.length
    + ((pairList u.length).map (fun p => |u.getD p.1 0 - u.getD p.2 0|)).sum
        / (u.length ^ 2)

/-- Squared sample distance covariance
(`dcor.distance_covariance_sqr`). -/
noncomputable def dcovSq (u v : List ℝ) : ℝ :=
  ((pairList u.length).map (fun p => aCent u p.1 p.2 * aCent v p.1 p.2)).sum
    / (u.length ^ 2)

/-- Sample distance correlation (`dcor.distance_correlation`):
`sqrt(dcov2(u,v) / sqrt(dvar2(u) * dvar2(v)))`, with value 0 when a
distance variance vanishes. -/
noncomputable def dcorr (u v : List ℝ) : ℝ :=
  if dcovSq u u * dcovSq v v = 0 then 0
  else Real.sqrt (dcovSq u v / Real.sqrt (dcovSq u u * dcovSq v v))

/-- Self-distance is zero. -/
theorem euclid_self (u : List ℝ) : euclid u u = 0 := by
  have h : (List.zipWith (fun a b => (a - b) ^ 2) u u).sum = 0 := by
    induction u with
    | nil => rfl
    | cons a t ih => simp [ih]
  rw [euclid, h, Real.sqrt_zero]

/-- The Euclidean distance is symmetric. -/
theorem euclid_comm (u v : List ℝ) : euclid u v = euclid v u := by
  rw [euclid, euclid,
    List.zipWith_comm_of_comm (fun a b => (a - b) ^ 2) (fun a b => by ring) u v]

/-- Distance variance is nonnegative. -/
theorem dcovSq_self_nonneg (u : List ℝ) : 0 ≤ dcovSq u u := by
  apply div_nonneg
  · apply List.sum_nonneg
    intro x hx
    simp only [List.mem_map] at hx
    obtain ⟨p, _, rfl⟩ := hx
    exact mul_self_nonneg _
  · positivity

/-- The distance correlation of a sample with itself is 1 whenever its
distance variance is nonzero. -/
theorem dcorr_self (u : List ℝ) (h : dcovSq u u ≠ 0) : dcorr u u = 1 := by
  rw [dcorr, if_neg (mul_ne_zero h h),
    Real.sqrt_mul_self (dcovSq_self_nonneg u), div_self h, Real.sqrt_one]

/-- Entry `(i, j)` of the affinity matrix built by `fcr`. -/
theorem fcr_d_entry (cols : List (List ℝ)) (i j : ℕ)
    (hi : i < cols.length) (hj : j < cols.length) :
    ((fcr_d cols).getD i []).getD j 0
      = -(euclid (standardize (cols.getD i [])) (standardize (cols.getD j []))) := by
  have h1 : i < ((List.range cols.length).map (fun i =>
      (List.range cols.length).map (fun j =>
        -(euclid (standardize (cols.getD i [])) (standardize (cols.getD j [])))))).length := by
    simpa using hi
  have hrow : (fcr_d cols).getD i []
      = (List.range cols.length).map (fun j =>
          -(euclid (standardize (cols.getD i [])) (standardize (cols.getD j [])))) := by
    rw [fcr_d, List.getD_eq_getElem _ _ h1]
    simp only [List.getElem_map, List.getElem_range]
  have h2 : j < ((List.range cols.length).map (fun j =>
      -(euclid (standardize (cols.getD i [])) (standardize (cols.getD j []))))).length := by
    simpa using hj
  rw [hrow, List.getD_eq_getElem _ _ h2]
  simp only [List.getElem_map, List.getElem_range]

/-- Claim C3 (amended): the matrix `fcr` hands to affinity propagation as
a precomputed affinity has entry `(i, j)` equal to the negative of the
plain pairwise Euclidean distance between standardized feature columns
`i` and `j` — a symmetric, nonpositive matrix with zero diagonal (higher
value = more similar) — and not the negative of the distance-correlation
statistic. -/
theorem fcr_affinity_entries (cols : List (List ℝ)) (i j : ℕ)
    (hi : i < cols.length) (hj : j < cols.length) :
    ((fcr_d cols).getD i []).getD j 0
        = -(euclid (standardize (cols.getD i [])) (standardize (cols.getD j []))) ∧
    ((fcr_d cols).getD i []).getD j 0 = ((fcr_d cols).getD j []).getD i 0 ∧
    ((fcr_d cols).getD i []).getD j 0 ≤ 0 ∧
    ((fcr_d cols).getD i []).getD i 0 = 0 := by
  refine ⟨fcr_d_entry cols i j hi hj, ?_, ?_, ?_⟩
  · rw [fcr_d_entry cols i j hi hj, fcr_d_entry cols j i hj hi, euclid_comm]
  · rw [fcr_d_entry cols i j hi hj]
    exact neg_nonpos.mpr (Real.sqrt_nonneg _)
  · rw [fcr_d_entry cols i i hi hi, euclid_self, neg_zero]

/-- Witness for `fcr_affinity_entries`: the diagonal entry of the
affinity matrix of a concrete two-column table. -/
theorem fcr_affinity_entries_witness :
    ((fcr_d [[(0 : ℝ), 2], [5, 1]]).getD 0 []).getD 0 0 = 0 :=
  (fcr_affinity_entries [[(0 : ℝ), 2], [5, 1]] 0 1 (by simp) (by simp)).2.2.2

/-- Standardizing the concrete column `[0, 2]` gives `[-1, 1]`. -/
theorem standardize_02 : standardize [(0 : ℝ), 2] = [-1, 1] := by
  have hmean : colMean [(0 : ℝ), 2] = 1 := by
    rw [colMean]
    norm_num
  have hvar : popVar [(0 : ℝ), 2] = 1 := by
    rw [popVar, hmean]
    norm_num
  have hscale : stdScale [(0 : ℝ), 2] = 1 := by
    rw [stdScale, hvar, Real.sqrt_one, if_neg (by norm_num)]
  rw [standardize, hmean, hscale]
  norm_num

/-- The squared distance variance of the standardized two-row column
`[-1, 1]` is 1. -/
theorem dcovSq_pm1 : dcovSq [(-1 : ℝ), 1] [(-1 : ℝ), 1] = 1 := by
  have h2 : |(-1 : ℝ) - 1| = 2 := by
    rw [show ((-1 : ℝ) - 1) = -2 by norm_num, abs_neg]
    rw [abs_of_nonneg (by norm_num : (0 : ℝ) ≤ 2)]
  have h2' : |(1 : ℝ) - (-1)| = 2 := by
    rw [show ((1 : ℝ) - (-1)) = 2 by norm_num]
    exact abs_of_nonneg (by norm_num)
  have hE : ([(-1 : ℝ), 1] : List ℝ)[1] = 1 := rfl
  simp only [dcovSq, aCent, pairList, List.length_cons, List.length_nil]
  norm_num [List.range_succ, h2, h2', hE]

/-- Claim C3, counterexample: on the table `[[0, 2], [5, 1]]` the
diagonal entry `(0, 0)` of the matrix the code passes to affinity
propagation is 0 (negated self-distance), whereas the negative of the
distance-correlation statistic of the standardized first column with
itself is -1 — so the matrix is not the negated distance-correlation
matrix. -/
theorem fcr_affinity_not_dcorr_cx :
    ((fcr_d [[(0 : ℝ), 2], [5, 1]]).getD 0 []).getD 0 0 = 0 ∧
    -(dcorr (standardize ([[(0 : ℝ), 2], [5, 1]].getD 0 []))
        (standardize ([[(0 : ℝ), 2], [5, 1]].getD 0 []))) = -1 ∧
    (0 : ℝ) ≠ -1 := by
  refine ⟨?_, ?_, by norm_num⟩
  · rw [fcr_d_entry [[(0 : ℝ), 2], [5, 1]] 0 0 (by simp) (by simp),
      euclid_self, neg_zero]
  · have hs : standardize ([[(0 : ℝ), 2], [5, 1]].getD 0 []) = [-1, 1] := by
      rw [List.getD_cons_zero]
      exact standardize_02
    rw [hs, dcorr_self [(-1 : ℝ), 1] (by rw [dcovSq_pm1]; norm_num)]

/-- Claim C7 (amended): a zero-variance (constant) feature column does
not make the selection pipeline fail: sklearn's `StandardScaler` replaces
the zero scale by 1, so the column standardizes to all zeros (defined
values, no NaN and no exception), and selection over a table containing a
constant column proceeds and returns complete results. -/
theorem constant_column_no_failure (n : ℕ) (c : ℝ) (name : String)
    (sc : List String → String → ℚ) :
    standardize (List.replicate n c) = List.replicate n 0 ∧
    forward_selection [name] 0 sc = .ok ([name], [sc [] name]) := by
  constructor
  · rcases Nat.eq_zero_or_pos n with rfl | hn
    · rfl
    · have hn' : (n : ℝ) ≠ 0 := Nat.cast_ne_zero.mpr (Nat.pos_iff_ne_zero.mp hn)
      have hmean : colMean (List.replicate n c) = c := by
        rw [colMean, List.sum_replicate, List.length_replicate, nsmul_eq_mul,
          mul_comm, mul_div_assoc, div_self hn', mul_one]
      have hvar : popVar (List.replicate n c) = 0 := by
        rw [popVar, hmean, List.map_replicate]
        simp
      have hscale : stdScale (List.replicate n c) = 1 := by
        rw [stdScale, hvar, Real.sqrt_zero, if_pos rfl]
      rw [standardize, hmean, hscale, List.map_replicate]
      simp
  · simp [forward_selection, fsLoop, firstArgmax, List.erase_cons_head]

/-- Claim C7, counterexample: with the constant column `[1, 1]`,
standardization is defined and yields `[0, 0]` — no NumericInstability is
raised and no NaN is produced — and a forward-selection run over a table
holding a constant column returns a complete result instead of failing
fast. -/
theorem constant_column_cx :
    standardize [(1 : ℝ), 1] = [0, 0] ∧
    forward_selection ["c"] 0 (fun _ _ => (0 : ℚ)) = .ok (["c"], [0]) := by
  constructor
  · have hmean : colMean [(1 : ℝ), 1] = 1 := by
      rw [colMean]
      norm_num
    have hvar : popVar [(1 : ℝ), 1] = 0 := by
      rw [popVar, hmean]
      norm_num
    have hscale : stdScale [(1 : ℝ), 1] = 1 := by
      rw [stdScale, hvar, Real.sqrt_zero, if_pos rfl]
    rw [standardize, hmean, hscale]
    norm_num
  · simp [forward_selection, fsLoop, firstArgmax, List.erase_cons_head]

/-- Squared distance covariance of feature `f`'s standardized column with
the standardized target: the `dy` values of lines 84-85
(`dcor.rowwise(dcor.distance_covariance_sqr, sc_feat_df[:, label_idx].T,
sc_y.T)`). -/
noncomputable def featDy (scF : List (List ℝ)) (scY : List ℝ) (f : ℕ) : ℝ :=
  dcovSq (scF.getD f []) scY

/-- `np.unique(ap.labels_)` (line 79): the distinct cluster labels in
increasing order. -/
def uniqueLabels (labels : List ℕ) : List ℕ :=
  (List.range (labels.foldr max 0 + 1)).filter (fun L => decide (L ∈ labels))

/-- `np.nonzero(ap.labels_ == label)[0]` (line 81): the features carrying
cluster label `L`, in index order. -/
def clusterMembers (labels : List ℕ) (L : ℕ) : List ℕ :=
  (List.range labels.length).filter (fun f => decide (labels.getD f 0 = L))

/-- Lines 79-90 of `fcr`: for each cluster label in turn, rank the member
features by squared distance covariance with the standardized target
(`label_idx[np.argsort(-dy)]`), keep the top-ranked member as the
cluster's representative and record the maximal `dy` value
(`np.max(dy)`, the value the representative attains) as the cluster
score. -/
noncomputable def fcrReps (scF : List (List ℝ)) (scY : List ℝ)
    (labels : List ℕ) : List (ℕ × ℝ) :=
  (uniqueLabels labels).filterMap (fun L =>
    (firstArgmax (featDy scF scY) (clusterMembers labels L)).map
      (fun r => (r, featDy scF scY r)))

/-- Comparison used to order clusters by descending representative score
(`np.argsort(-np.array(cluster_scores))`, line 92). -/
def clusterOrder (a b : ℕ × ℝ) : Prop := b.2 ≤ a.2

noncomputable instance : DecidableRel clusterOrder :=
  fun a b => inferInstanceAs (Decidable (b.2 ≤ a.2))

instance : IsTotal (ℕ × ℝ) clusterOrder := ⟨fun a b => le_total b.2 a.2⟩

instance : IsTrans (ℕ × ℝ) clusterOrder := ⟨fun _ _ _ h1 h2 => le_trans h2 h1⟩

/-- Lines 92-97 of `fcr`: representatives and scores rearranged in
descending score order and truncated by the `[:max_num_feats]` slice
(`none` models the default `None`, which keeps everything). -/
noncomputable def fcrSelect (scF : List (List ℝ)) (scY : List ℝ)
    (labels : List ℕ) (maxN : Option ℕ) : List (ℕ × ℝ) :=
  (List.insertionSort clusterOrder (fcrReps scF scY labels)).take
    (maxN.getD (fcrReps scF scY labels).length)

/-- Every label occurring in the clustering has at least one member. -/
theorem clusterMembers_of_uniqueLabel (labels : List ℕ) (L : ℕ)
    (h : L ∈ uniqueLabels labels) : clusterMembers labels L ≠ [] := by
  have hL : L ∈ labels := of_decide_eq_true (List.mem_filter.mp h).2
  obtain ⟨i, hi, hget⟩ := List.mem_iff_getElem.mp hL
  have hmem : i ∈ clusterMembers labels L := by
    apply List.mem_filter.mpr
    refine ⟨List.mem_range.mpr hi, ?_⟩
    rw [decide_eq_true_eq, List.getD_eq_getElem _ _ hi]
    exact hget
  exact List.ne_nil_of_mem hmem

/-- Claim C4: for every clustering produced inside `fcr`, each cluster's
representative is a member feature attaining the maximal squared distance
covariance with the standardized target and is recorded together with
that maximal value as the cluster's score; the representatives are
arranged in descending order of cluster score; and the result is
truncated to `max_num_feats` when it is given (all representatives are
returned otherwise). -/
theorem fcr_representatives (scF : List (List ℝ)) (scY : List ℝ)
    (labels : List ℕ) (maxN : Option ℕ) :
    (∀ L ∈ uniqueLabels labels, ∃ r,
        r ∈ clusterMembers labels L ∧
        (r, featDy scF scY r) ∈ fcrReps scF scY labels ∧
        ∀ f ∈ clusterMembers labels L, featDy scF scY f ≤ featDy scF scY r) ∧
    (∃ ordered : List (ℕ × ℝ), ordered.Perm (fcrReps scF scY labels) ∧
        List.Sorted (fun a b : ℕ × ℝ => b.2 ≤ a.2) ordered ∧
        fcrSelect scF scY labels maxN
          = ordered.take (maxN.getD (fcrReps scF scY labels).length)) ∧
    (fcrSelect scF scY labels maxN).length
      = min (maxN.getD (fcrReps scF scY labels).length)
          (fcrReps scF scY labels).length := by
  refine ⟨?_, ?_, ?_⟩
  · intro L hL
    obtain ⟨r, l1, l2, hsome, hdec, h1, h2⟩ :=
      firstArgmax_spec (featDy scF scY) (clusterMembers labels L)
        (clusterMembers_of_uniqueLabel labels L hL)
    refine ⟨r, by rw [hdec]; simp, ?_, ?_⟩
    · apply List.mem_filterMap.mpr
      exact ⟨L, hL, by rw [hsome]; rfl⟩
    · intro f hf
      rw [hdec] at hf
      rcases List.mem_append.mp hf with hx | hx
      · exact le_of_lt (h1 f hx)
      · rcases List.mem_cons.mp hx with rfl | hx'
        · exact le_refl _
        · exact h2 f hx'
  · refine ⟨List.insertionSort clusterOrder (fcrReps scF scY labels),
      List.perm_insertionSort clusterOrder _, ?_, rfl⟩
    exact List.sorted_insertionSort clusterOrder _
  · rw [fcrSelect, List.length_take,
      (List.perm_insertionSort clusterOrder (fcrReps scF scY labels)).length_eq]

/-- Witness for `fcr_representatives` on a concrete one-feature,
one-cluster table. -/
theorem fcr_representatives_witness :
    (fcrSelect [[(-1 : ℝ), 1]] [(-1 : ℝ), 1] [0] (some 1)).length
      = min ((some 1).getD (fcrReps [[(-1 : ℝ), 1]] [(-1 : ℝ), 1] [0]).length)
          (fcrReps [[(-1 : ℝ), 1]] [(-1 : ℝ), 1] [0]).length :=
  (fcr_representatives [[(-1 : ℝ), 1]] [(-1 : ℝ), 1] [0] (some 1)).2.2
